import Mathlib

/-!
Verification of `contributions.py` (DD-DeCaF/contributions).

Shallow embedding of the contribution-collection engine:
* the GraphQL response data model (pydantic models `PageInfo`, `Repository`,
  `Repositories`, `Organization`, `OrgResponse`, `User`, `Author`, `Commit`,
  `History`, `Target`, `Branch`, `BranchRepo`, `RepoResponse`),
* `get_repositories` (cursor pagination over the organization's repository
  listing, with the final `assert len(result) == repos.total`),
* `get_commits` (per-page bounded retry loop `for number in range(1, 8)` with
  exponential backoff on an absent/null `defaultBranchRef`, cursor pagination
  over the default branch's commit history, final length assertion),
* `summarize_contributions` (allow/deny name filtering, retrieval in
  `sorted(names)` order, and the fold building `result` (a `defaultdict(int)`
  keyed by author email) and `authors` (per-email dicts of observed name and
  login sets)).

The remote side is modelled as the finite sequence of responses it delivers,
in order; each `execute` call consumes the next response.  Python exceptions
(`RuntimeError`, `AttributeError`, `AssertionError`) are explicit outcome
constructors; running out of modelled responses is the distinct outcome
`noResponse` (a modelling artifact that never occurs in the theorems'
hypotheses).
-/

namespace Contributions

/-- `PageInfo` pydantic model: `hasNextPage` / `endCursor`. -/
structure PageInfo where
  has_next : Bool
  end_cursor : String
  deriving DecidableEq, Repr

/-- `Repository` pydantic model: `id`, `name`, `url` (URL kept as a string). -/
structure Repository where
  id : String
  name : String
  url : String
  deriving DecidableEq, Repr

/-- `Repositories` pydantic model: one page of the repository listing
(`nodes`, `pageInfo`, `totalCount`). -/
structure Repositories where
  nodes : List Repository
  page_info : PageInfo
  total : Nat
  deriving DecidableEq, Repr

/-- `Organization` pydantic model. -/
structure Organization where
  id : String
  repositories : Repositories
  deriving DecidableEq, Repr

/-- `OrgResponse` pydantic model: one parsed response of the
`getOrganizationRepositories` query. -/
structure OrgResponse where
  organization : Organization
  deriving DecidableEq, Repr

/-- Outcome of `get_repositories`: the returned list, the failed
`assert len(result) == repos.total`, or the modelling artifact of the remote
delivering no further response. -/
inductive ReposResult where
  | ok (result : List Repository)
  | assertionError
  | noResponse
  deriving DecidableEq, Repr

/-- The `while repos.page_info.has_next` loop of `get_repositories`
(src/contributions.py:143-159): as long as the current page reports a next
page, consume the next delivered response, extend `result` with its nodes and
rebind `repos`; afterwards `assert len(result) == repos.total` against the
last page's `totalCount` (line 160). -/
def reposLoop (responses : List OrgResponse) (result : List Repository)
    (repos : Repositories) : ReposResult :=
  if repos.page_info.has_next then
    match responses with
    | [] => .noResponse
    | d :: rest =>
        reposLoop rest (result ++ d.organization.repositories.nodes)
          d.organization.repositories
  else if result.length = repos.total then .ok result else .assertionError

/-- `get_repositories` (src/contributions.py:97-161): issue the first request,
seed `result` with the first page's nodes, then run the pagination loop. -/
def get_repositories (responses : List OrgResponse) : ReposResult :=
  match responses with
  | [] => .noResponse
  | d :: rest =>
      reposLoop rest d.organization.repositories.nodes d.organization.repositories

/-- `User` pydantic model. -/
structure User where
  login : String
  deriving DecidableEq, Repr

/-- `Author` pydantic model: `user` is `Optional[User]` (absent for commits
whose author is not linked to a platform account). -/
structure Author where
  name : String
  email : String
  user : Option User
  deriving DecidableEq, Repr

/-- `Commit` pydantic model: `oid`, `additions`, `deletions`, `author`. -/
structure Commit where
  sha : String
  additions : Int
  deletions : Int
  author : Author
  deriving DecidableEq, Repr

/-- `History` pydantic model: one page of a branch's commit history
(`nodes`, `pageInfo`, `totalCount`). -/
structure History where
  nodes : List Commit
  page_info : PageInfo
  total : Nat
  deriving DecidableEq, Repr

/-- `Target` pydantic model. -/
structure Target where
  history : History
  deriving DecidableEq, Repr

/-- `Branch` pydantic model. -/
structure Branch where
  name : String
  target : Target
  deriving DecidableEq, Repr

/-- `BranchRepo` pydantic model: `defaultBranchRef`. -/
structure BranchRepo where
  default_branch : Branch
  deriving DecidableEq, Repr

/-- `RepoResponse` pydantic model: one parsed response of the `getCommitInfo`
query. -/
structure RepoResponse where
  repository : BranchRepo
  deriving DecidableEq, Repr

/-- One raw response to the `getCommitInfo` query, before
`RepoResponse.parse_obj`: either the "unready" signal
(`data.get("repository", {}).get("defaultBranchRef") is None`,
src/contributions.py:276) or a response that parses to a `RepoResponse`. -/
inductive Resp where
  | unready
  | ready (d : RepoResponse)
  deriving DecidableEq, Repr

/-- How the per-page retry loop `for number in range(1, 8)` of `get_commits`
terminates: `break` with a parsed response, fall out of the loop with all
attempts unready (Python then leaves the loop variable at its last value, 7),
or the modelling artifact of the remote delivering no further response. -/
inductive RetryOut where
  | page (d : RepoResponse)
  | fallthrough
  | noResp
  deriving DecidableEq, Repr

/-- The retry loop `for number in range(1, 8)` of `get_commits`
(src/contributions.py:274-283 for the first page, 293-305 for each later
page, both textually identical): each iteration consumes one delivered
response; on the unready signal it logs `2 ** number` as the backoff sleep
and retries with `number + 1`; on a parsable response it breaks.  Returns the
unconsumed responses, the performed sleeps, the Python value of the loop
variable `number` after the loop (on fall-through, `range(1, 8)` leaves it at
`7 = number - 1`), and how the loop ended. -/
def retryGo (responses : List Resp) (number : Nat) (sleeps : List Nat) :
    List Resp × List Nat × Nat × RetryOut :=
  if number < 8 then
    match responses with
    | [] => (responses, sleeps, number, .noResp)
    | .unready :: rest => retryGo rest (number + 1) (sleeps ++ [2 ^ number])
    | .ready d :: rest => (rest, sleeps, number, .page d)
  else (responses, sleeps, number - 1, .fallthrough)

/-- The retry loop never produces more unconsumed responses than it was
given. -/
theorem retryGo_length_le (responses : List Resp) (number : Nat) (sleeps : List Nat) :
    (retryGo responses number sleeps).1.length ≤ responses.length := by
  induction responses, number, sleeps using retryGo.induct with
  | case1 n s h => rw [retryGo.eq_def]; simp [h]
  | case2 n s h rest ih =>
      rw [retryGo.eq_def]
      simp only [if_pos h]
      exact Nat.le_succ_of_le ih
  | case3 n s h d rest => rw [retryGo.eq_def]; simp [h]
  | case4 rs n s h => rw [retryGo.eq_def]; simp [h]

/-- When the retry loop breaks with a parsed page it has consumed at least one
response. -/
theorem retryGo_page_length_lt (responses : List Resp) (number : Nat)
    (sleeps : List Nat) (rest : List Resp) (sl : List Nat) (num : Nat)
    (d : RepoResponse)
    (h : retryGo responses number sleeps = (rest, sl, num, .page d)) :
    rest.length < responses.length := by
  induction responses, number, sleeps using retryGo.induct with
  | case1 n s hn =>
      rw [retryGo.eq_def] at h
      simp [hn] at h
  | case2 n s hn rest2 ih =>
      rw [retryGo.eq_def] at h
      simp only [if_pos hn] at h
      exact Nat.lt_succ_of_lt (ih h)
  | case3 n s hn d2 rest2 =>
      rw [retryGo.eq_def] at h
      simp only [if_pos hn, Prod.mk.injEq, RetryOut.page.injEq] at h
      obtain ⟨h1, -, -, -⟩ := h
      subst h1
      exact Nat.lt_succ_self _
  | case4 rs n s hn =>
      rw [retryGo.eq_def] at h
      simp [hn] at h

/-- Started at any `number ≤ 8`, a fall-through of the retry loop leaves the
Python loop variable at 7; the post-loop guard `if number == 8` can therefore
never fire. -/
theorem retryGo_fallthrough_num (responses : List Resp) (number : Nat)
    (sleeps : List Nat) (rest : List Resp) (sl : List Nat) (num : Nat)
    (hn : number ≤ 8)
    (h : retryGo responses number sleeps = (rest, sl, num, .fallthrough)) :
    num = 7 := by
  induction responses, number, sleeps using retryGo.induct with
  | case1 n s hlt =>
      rw [retryGo.eq_def] at h
      simp [hlt] at h
  | case2 n s hlt rest2 ih =>
      rw [retryGo.eq_def] at h
      simp only [if_pos hlt] at h
      exact ih (by omega) h
  | case3 n s hlt d2 rest2 =>
      rw [retryGo.eq_def] at h
      simp only [if_pos hlt, Prod.mk.injEq] at h
      exact absurd h.2.2.2 (by simp)
  | case4 rs n s hlt =>
      rw [retryGo.eq_def] at h
      simp only [if_neg hlt, Prod.mk.injEq] at h
      omega

/-- Outcome of `get_commits`: the returned commit list, the (unreachable)
`RuntimeError("Failed to get a proper response.")`, the `AttributeError` hit
when the retry loop falls through and `data.repository` is accessed on the
raw unready dict, the failed `assert len(commits) == history.total`, or the
modelling artifact of the remote delivering no further response. -/
inductive CommitsResult where
  | ok (commits : List Commit)
  | runtimeError
  | attributeError
  | assertionError
  | noResponse
  deriving DecidableEq, Repr

/-- The `while history.page_info.has_next` loop of `get_commits`
(src/contributions.py:288-309): for each further page run the retry loop,
then the dead guard `if number == 8: raise RuntimeError` (line 306; on
fall-through `number` is 7, so instead `data.repository` on the raw dict
raises `AttributeError`), then extend `commits` with the page's nodes and
rebind `history`; afterwards `assert len(commits) == history.total` against
the last page's `totalCount` (line 310). -/
def commitsWhile (responses : List Resp) (commits : List Commit)
    (history : History) : CommitsResult :=
  if history.page_info.has_next then
    match h : retryGo responses 1 [] with
    | (rest, _sl, _num, .page d) =>
        commitsWhile rest (commits ++ d.repository.default_branch.target.history.nodes)
          d.repository.default_branch.target.history
    | (_, _, number, .fallthrough) => if number = 8 then .runtimeError else .attributeError
    | (_, _, _, .noResp) => .noResponse
  else if commits.length = history.total then .ok commits else .assertionError
termination_by responses.length
decreasing_by exact retryGo_page_length_lt _ _ _ _ _ _ _ h

/-- `get_commits` (src/contributions.py:217-311): run the retry loop for the
first page (with the same dead `if number == 8` guard, line 284), seed
`commits` with the first page's nodes, then run the pagination loop. -/
def get_commits (responses : List Resp) : CommitsResult :=
  match retryGo responses 1 [] with
  | (rest, _sl, _num, .page d) =>
      commitsWhile rest d.repository.default_branch.target.history.nodes
        d.repository.default_branch.target.history
  | (_, _, number, .fallthrough) => if number = 8 then .runtimeError else .attributeError
  | (_, _, _, .noResp) => .noResponse

/-- Python-dict lookup on an insertion-ordered association list (Python dicts
key by equality; both `result` and `authors` are dicts keyed by author
email). -/
def lookup {α : Type} (m : List (String × α)) (k : String) : Option α :=
  match m with
  | [] => none
  | p :: rest => if p.1 = k then some p.2 else lookup rest k

/-- `result[email] += v` on the `defaultdict(int)` `result`
(src/contributions.py:368,373): add `v` to the existing entry, or insert the
key with initial value 0 (hence `v`) on first sight. -/
def bumpTotal (m : List (String × Int)) (email : String) (v : Int) :
    List (String × Int) :=
  match m with
  | [] => [(email, v)]
  | (k, n) :: rest =>
      if k = email then (k, n + v) :: rest else (k, n) :: bumpTotal rest email v

/-- The per-email record built in `authors` (src/contributions.py:374-377): a
dict that always receives a `"names"` set, and a `"login"` set only once a
commit with a platform-linked user (`commit.author.user is not None`) is
seen — so the `"login"` key is `none` (absent) until then. -/
structure AuthorDetail where
  names : Finset String
  login : Option (Finset String)
  deriving DecidableEq

/-- Fold one commit into one email's record:
`auth.setdefault("names", set()).add(commit.author.name)` and, when the
author has a linked user,
`auth.setdefault("login", set()).add(user.login)`. -/
def updDetail (d : AuthorDetail) (c : Commit) : AuthorDetail :=
  { names := insert c.author.name d.names
    login :=
      match c.author.user with
      | some u => some (insert u.login (d.login.getD ∅))
      | none => d.login }

/-- `auth = authors.setdefault(email, {})` followed by the two field updates
(src/contributions.py:374-377): update the existing record for
`commit.author.email`, or append a fresh one (`⟨∅, none⟩`, the empty dict)
first. -/
def updAuthors (m : List (String × AuthorDetail)) (c : Commit) :
    List (String × AuthorDetail) :=
  match m with
  | [] => [(c.author.email, updDetail ⟨∅, none⟩ c)]
  | (k, d) :: rest =>
      if k = c.author.email then (k, updDetail d c) :: rest
      else (k, d) :: updAuthors rest c

/-- The body of `for commit in commits` (src/contributions.py:371-377): bump
the email's running total by `commit.additions + commit.deletions` and fold
the author's name/login into the email's `authors` record. -/
def addCommit (st : List (String × Int) × List (String × AuthorDetail))
    (c : Commit) : List (String × Int) × List (String × AuthorDetail) :=
  (bumpTotal st.1 c.author.email (c.additions + c.deletions), updAuthors st.2 c)

/-- Fold one repository's commit list (one ledger fragment) into the
accumulated `(result, authors)` state. -/
def processCommits (st : List (String × Int) × List (String × AuthorDetail))
    (commits : List Commit) : List (String × Int) × List (String × AuthorDetail) :=
  commits.foldl addCommit st

/-- The whole aggregation loop `for commits in (...)` of
`summarize_contributions` (src/contributions.py:368-377), starting from the
empty `defaultdict(int)` and the empty `authors` dict. -/
def foldFrags (frags : List (List Commit)) :
    List (String × Int) × List (String × AuthorDetail) :=
  frags.foldl processCommits ([], [])

/-- The repository-name filter of `summarize_contributions`
(src/contributions.py:362-366): `names.intersection_update(allow)` only when
`allow` is non-empty, then `names.difference_update(deny)` only when `deny`
is non-empty. -/
def filterNames (names allow deny : Finset String) : Finset String :=
  let names' := if allow.Nonempty then names ∩ allow else names
  if deny.Nonempty then names' \ deny else names'

/-- The order in which `summarize_contributions` retrieves commit histories:
`for n in sorted(names)` (src/contributions.py:370), Python's `sorted` on
strings being ascending lexicographic order. -/
def retrievalOrder (repos : List Repository) (allow deny : Finset String) :
    List String :=
  (filterNames (repos.map (·.name)).toFinset allow deny).sort (· ≤ ·)

/-- The generator `(get_commits(client, organization, n) for n in sorted(names))`
(src/contributions.py:370), consumed one repository at a time, in order; the
first raised exception propagates and aborts the run (no partial result). -/
def runCommits (order : List String) (responses : String → List Resp) :
    Except CommitsResult (List (List Commit)) :=
  match order with
  | [] => .ok []
  | n :: rest =>
      match get_commits (responses n) with
      | .ok commits => (runCommits rest responses).map (commits :: ·)
      | e => .error e

/-- `summarize_contributions` (src/contributions.py:319-378): list the
organization's repositories, filter their names by `allow`/`deny`, retrieve
each remaining repository's commit history in `sorted(names)` order, and fold
every commit into `result` (email → additions+deletions total) and `authors`
(email → observed names / logins).  `none` models the run aborting with a
propagated exception. -/
def summarize_contributions (listing : List OrgResponse)
    (allow deny : Finset String) (responses : String → List Resp) :
    Option (List (String × Int) × List (String × AuthorDetail)) :=
  match get_repositories listing with
  | .ok repos =>
      match runCommits (retrievalOrder repos allow deny) responses with
      | .ok frags => some (foldFrags frags)
      | .error _ => none
  | _ => none

/-! ### Theorems -/

/-- Running the retry loop on `k` unready responses followed by a parsable
one: `k` backoff sleeps of `2 ^ number` each, then break at attempt
`number + k` with the parsed page and the remaining responses untouched. -/
theorem retryGo_unready_prefix (k : Nat) (number : Nat) (sleeps : List Nat)
    (hn : number + k < 8) (d : RepoResponse) (rest : List Resp) :
    retryGo (List.replicate k .unready ++ .ready d :: rest) number sleeps =
      (rest, sleeps ++ (List.range k).map (fun i => 2 ^ (number + i)),
        number + k, .page d) := by
  induction k generalizing number sleeps with
  | zero =>
      rw [List.replicate_zero, List.nil_append, retryGo.eq_def]
      simp [show number < 8 by omega]
  | succ k ih =>
      rw [List.replicate_succ, List.cons_append, retryGo.eq_def]
      simp only [if_pos (show number < 8 by omega)]
      rw [ih (number + 1) (sleeps ++ [2 ^ number]) (by omega)]
      have hmap : (List.range (k + 1)).map (fun i => (2 : Nat) ^ (number + i)) =
          2 ^ number :: (List.range k).map (fun i => 2 ^ (number + 1 + i)) := by
        rw [List.range_succ_eq_map, List.map_cons, List.map_map]
        refine congrArg₂ _ (by simp) (List.map_congr_left fun i _ => ?_)
        simp only [Function.comp_apply]
        exact congrArg (2 ^ ·) (by omega)
      have hnum : number + 1 + k = number + (k + 1) := by omega
      rw [hmap, List.append_assoc, hnum]
      rfl

/-- C6: for every `k` strictly below the maximum attempt count (7), if the
remote answers unready for exactly `k` consecutive calls of one page request
and then succeeds, the retry loop of `get_commits` returns the successfully
parsed response after exactly `k` retries, having slept `2 ^ attempt` seconds
before each retry with the attempt counter starting at its initial value 1
(sleeps `2 ^ 1, …, 2 ^ k`), leaving the loop at attempt `1 + k`. -/
theorem backoff_returns_success_after_k_retries (k : Nat) (hk : k < 7)
    (d : RepoResponse) (rest : List Resp) :
    retryGo (List.replicate k .unready ++ .ready d :: rest) 1 [] =
      (rest, (List.range k).map (fun i => 2 ^ (1 + i)), 1 + k, .page d) := by
  have h := retryGo_unready_prefix k 1 [] (by omega) d rest
  simpa using h

/-- Witness for C6 at `k = 2`: two unready responses then success; the loop
sleeps 2 then 4 seconds and returns the parsed page at attempt 3. -/
theorem backoff_returns_success_after_k_retries_witness :
    retryGo
        (List.replicate 2 .unready ++
          .ready ⟨⟨⟨"main", ⟨⟨[], ⟨false, ""⟩, 0⟩⟩⟩⟩⟩ :: []) 1 [] =
      ([], [2, 4], 3, .page ⟨⟨⟨"main", ⟨⟨[], ⟨false, ""⟩, 0⟩⟩⟩⟩⟩) := by
  rw [backoff_returns_success_after_k_retries 2 (by omega)
    ⟨⟨⟨"main", ⟨⟨[], ⟨false, ""⟩, 0⟩⟩⟩⟩⟩ []]
  rfl

/-- C5: the repository-name filter equals intersection with `allow` (only
when `allow` is non-empty) followed by unconditional subtraction of `deny`;
unmatched names are silently ineffective: dropping a name that matches no
repository from a still-nonempty `allow`, or from `deny`, leaves the result
unchanged (and the filter is a total function, so no input raises).  The two
concrete examples of the spec are included. -/
theorem filter_allow_deny_semantics :
    (∀ names allow deny : Finset String,
        filterNames names allow deny =
          (if allow = ∅ then names else names ∩ allow) \ deny)
    ∧ (∀ (names allow deny : Finset String) (x : String), x ∉ names →
        (allow \ {x}).Nonempty →
        filterNames names allow deny = filterNames names (allow \ {x}) deny)
    ∧ (∀ (names allow deny : Finset String) (x : String), x ∉ names →
        filterNames names allow deny = filterNames names allow (deny \ {x}))
    ∧ filterNames {"a", "b", "c"} {"a", "b"} {"b"} = {"a"}
    ∧ filterNames {"a", "b", "c"} ∅ {"c"} = {"a", "b"} := by
  have hgen : ∀ names allow deny : Finset String,
      filterNames names allow deny =
        (if allow = ∅ then names else names ∩ allow) \ deny := by
    intro names allow deny
    show (if deny.Nonempty then (if allow.Nonempty then names ∩ allow else names) \ deny
          else (if allow.Nonempty then names ∩ allow else names)) =
        (if allow = ∅ then names else names ∩ allow) \ deny
    have h1 : (if allow.Nonempty then names ∩ allow else names) =
        (if allow = ∅ then names else names ∩ allow) := by
      rcases eq_or_ne allow ∅ with ha | ha
      · have hno : ¬allow.Nonempty := by
          rw [ha]
          exact Finset.not_nonempty_empty
        rw [if_neg hno, if_pos ha]
      · rw [if_pos (Finset.nonempty_iff_ne_empty.2 ha), if_neg ha]
    rw [h1]
    rcases eq_or_ne deny ∅ with hd | hd
    · have hno : ¬deny.Nonempty := by
        rw [hd]
        exact Finset.not_nonempty_empty
      rw [if_neg hno, hd, Finset.sdiff_empty]
    · rw [if_pos (Finset.nonempty_iff_ne_empty.2 hd)]
  refine ⟨hgen, ?_, ?_, by decide, by decide⟩
  · intro names allow deny x hx hne
    rw [hgen, hgen]
    have hne' : allow \ {x} ≠ ∅ := Finset.nonempty_iff_ne_empty.1 hne
    have hane : allow ≠ ∅ := by
      intro h
      subst h
      exact hne' (Finset.empty_sdiff _)
    rw [if_neg hane, if_neg hne']
    congr 1
    ext y
    simp only [Finset.mem_inter, Finset.mem_sdiff, Finset.mem_singleton]
    constructor
    · rintro ⟨hy, hya⟩
      exact ⟨hy, hya, fun hxy => hx (hxy ▸ hy)⟩
    · rintro ⟨hy, hya, -⟩
      exact ⟨hy, hya⟩
  · intro names allow deny x hx
    rw [hgen, hgen]
    have hsub : (if allow = ∅ then names else names ∩ allow) ⊆ names := by
      split
      · exact fun y hy => hy
      · exact Finset.inter_subset_left
    ext y
    simp only [Finset.mem_sdiff, Finset.mem_singleton]
    constructor
    · rintro ⟨hy, hyd⟩
      exact ⟨hy, fun h => hyd h.1⟩
    · rintro ⟨hy, hyd⟩
      refine ⟨hy, fun h => hyd ⟨h, fun hxy => hx (hxy ▸ hsub hy)⟩⟩

/-- Witness for C5's conditional parts at concrete inputs: `"z"` matches no
repository in `{"a", "b", "c"}`, and dropping it from `allow = {"a", "z"}`
(still nonempty) does not change the filter result. -/
theorem filter_allow_deny_semantics_witness :
    ("z" ∉ ({"a", "b", "c"} : Finset String))
    ∧ ((({"a", "z"} : Finset String) \ {"z"}).Nonempty)
    ∧ filterNames {"a", "b", "c"} {"a", "z"} {"b"} =
        filterNames {"a", "b", "c"} ({"a", "z"} \ {"z"}) {"b"} :=
  ⟨by decide, by decide,
    filter_allow_deny_semantics.2.1 {"a", "b", "c"} {"a", "z"} {"b"} "z"
      (by decide) (by decide)⟩

/-- Unfolding `commitsWhile` when the current page has a next page and the
retry loop breaks with a parsed response. -/
theorem commitsWhile_next_page {responses rest : List Resp}
    {commits : List Commit} {history : History} {sl : List Nat} {num : Nat}
    {d : RepoResponse} (hnext : history.page_info.has_next = true)
    (h : retryGo responses 1 [] = (rest, sl, num, .page d)) :
    commitsWhile responses commits history =
      commitsWhile rest (commits ++ d.repository.default_branch.target.history.nodes)
        d.repository.default_branch.target.history := by
  rw [commitsWhile.eq_def, if_pos hnext]
  split
  · rename_i rest2 sl2 num2 d2 heq
    rw [h] at heq
    simp only [Prod.mk.injEq, RetryOut.page.injEq] at heq
    obtain ⟨h1, -, -, h4⟩ := heq
    subst h1 h4
    rfl
  · rename_i fst fst1 number heq
    rw [h] at heq
    simp at heq
  · rename_i fst fst1 fst2 heq
    rw [h] at heq
    simp at heq

/-- Unfolding `commitsWhile` when the current page has a next page and the
retry loop falls through with every attempt unready. -/
theorem commitsWhile_fallthrough {responses rest : List Resp}
    {commits : List Commit} {history : History} {sl : List Nat} {num : Nat}
    (hnext : history.page_info.has_next = true)
    (h : retryGo responses 1 [] = (rest, sl, num, .fallthrough)) :
    commitsWhile responses commits history =
      if num = 8 then .runtimeError else .attributeError := by
  rw [commitsWhile.eq_def, if_pos hnext]
  split
  · rename_i rest2 sl2 num2 d2 heq
    rw [h] at heq
    simp at heq
  · rename_i fst fst1 number heq
    rw [h] at heq
    simp only [Prod.mk.injEq] at heq
    rw [heq.2.2.1]
  · rename_i fst fst1 fst2 heq
    rw [h] at heq
    simp at heq

/-- Unfolding `commitsWhile` when the current page is the last one
(`hasNextPage` false): the loop stops and the length assertion runs. -/
theorem commitsWhile_last {responses : List Resp} {commits : List Commit}
    {history : History} (hnext : history.page_info.has_next = false) :
    commitsWhile responses commits history =
      if commits.length = history.total then .ok commits else .assertionError := by
  rw [commitsWhile.eq_def, if_neg (by simp [hnext])]

/-- The commit pagination loop can never raise the declared `RuntimeError`:
its retry loop starts at attempt 1, so on fall-through the Python loop
variable is 7 and the `if number == 8` guard never fires. -/
theorem commitsWhile_ne_runtimeError (responses : List Resp)
    (commits : List Commit) (history : History) :
    commitsWhile responses commits history ≠ .runtimeError := by
  induction responses, commits, history using commitsWhile.induct with
  | case1 responses commits history hnext rest sl num d h ih =>
      rw [commitsWhile_next_page hnext h]
      exact ih
  | case2 responses commits history hnext rest sl h =>
      have h7 := retryGo_fallthrough_num responses 1 [] rest sl 8 (by omega) h
      omega
  | case3 responses commits history hnext rest sl num h hnum =>
      rw [commitsWhile_fallthrough hnext h, if_neg hnum]
      simp
  | case4 responses commits history hnext rest sl num h =>
      rw [commitsWhile.eq_def, if_pos hnext]
      split
      · rename_i rest2 sl2 num2 d2 heq
        rw [h] at heq
        simp at heq
      · rename_i fst fst1 number heq
        rw [h] at heq
        simp at heq
      · simp
  | case5 responses commits history hnext hlen =>
      rw [commitsWhile_last (by simpa using hnext), if_pos hlen]
      simp
  | case6 responses commits history hnext hlen =>
      rw [commitsWhile_last (by simpa using hnext), if_neg hlen]
      simp

/-- No response sequence whatsoever can make `get_commits` raise the
declared `RuntimeError`: the `if number == 8` guard is dead code in both
retry loops. -/
theorem get_commits_runtimeError_unreachable (responses : List Resp) :
    get_commits responses ≠ .runtimeError := by
  unfold get_commits
  rcases hq : retryGo responses 1 [] with ⟨rest, sl, num, out⟩
  cases out with
  | page d => exact commitsWhile_ne_runtimeError _ _ _
  | fallthrough =>
      rw [retryGo_fallthrough_num responses 1 [] rest sl num (by omega) hq]
      simp
  | noResp => simp

/-- C2 (code bug): when the remote reports unready on every one of the 7
attempts of the retry loop, `get_commits` does NOT raise the declared
`RuntimeError("Failed to get a proper response.")`: `for number in
range(1, 8)` leaves `number == 7` after falling through, the dead guard
`if number == 8` (src/contributions.py:284, 306) never fires, and execution
continues to `data.repository` on the raw unready dict, crashing with
`AttributeError` instead (see also `get_commits_runtimeError_unreachable`:
no response sequence can produce the declared `RuntimeError`). -/
theorem retry_exhaustion_hits_attribute_error :
    get_commits (List.replicate 7 .unready) = .attributeError := rfl

/-- Unfolding `reposLoop` when the current page reports a next page and a
response is delivered. -/
theorem reposLoop_cons {d : OrgResponse} {rest : List OrgResponse}
    {result : List Repository} {repos : Repositories}
    (h : repos.page_info.has_next = true) :
    reposLoop (d :: rest) result repos =
      reposLoop rest (result ++ d.organization.repositories.nodes)
        d.organization.repositories := by
  rw [reposLoop.eq_def, if_pos h]

/-- Unfolding `reposLoop` when the current page is the last one: the loop
stops and the length assertion runs. -/
theorem reposLoop_stop {responses : List OrgResponse}
    {result : List Repository} {repos : Repositories}
    (h : repos.page_info.has_next = false) :
    reposLoop responses result repos =
      if result.length = repos.total then .ok result else .assertionError := by
  rw [reposLoop.eq_def, if_neg (by simp [h])]

/-- The repository pagination loop over a delivered page sequence
`front ++ [lastD]` in which every page of `front` reports a next page and
`lastD` does not: it accumulates every page's nodes in order and then runs
the length assertion against the last page's `totalCount`. -/
theorem reposLoop_pages (front : List OrgResponse) (lastD : OrgResponse)
    (result : List Repository) (cur : Repositories)
    (hcur : cur.page_info.has_next = true)
    (hfront : ∀ d ∈ front, d.organization.repositories.page_info.has_next = true)
    (hlast : lastD.organization.repositories.page_info.has_next = false) :
    reposLoop (front ++ [lastD]) result cur =
      (if (result ++ (front ++ [lastD]).flatMap
            (fun d => d.organization.repositories.nodes)).length =
          lastD.organization.repositories.total
       then .ok (result ++ (front ++ [lastD]).flatMap
            (fun d => d.organization.repositories.nodes))
       else .assertionError) := by
  induction front generalizing result cur with
  | nil =>
      rw [List.nil_append, reposLoop_cons hcur, reposLoop_stop hlast]
      simp
  | cons f front ih =>
      rw [List.cons_append, reposLoop_cons hcur]
      rw [ih (result ++ f.organization.repositories.nodes)
        f.organization.repositories (hfront f (by simp))
        (fun d hd => hfront d (by simp [hd]))]
      simp [List.append_assoc]

/-- The commit pagination loop over delivered responses
`((front ++ [lastD]).map .ready)` (each page request succeeding immediately)
in which every page of `front` reports a next page and `lastD` does not. -/
theorem commitsWhile_pages (front : List RepoResponse) (lastD : RepoResponse)
    (commits : List Commit) (history : History)
    (hcur : history.page_info.has_next = true)
    (hfront : ∀ d ∈ front,
      d.repository.default_branch.target.history.page_info.has_next = true)
    (hlast : lastD.repository.default_branch.target.history.page_info.has_next = false) :
    commitsWhile ((front ++ [lastD]).map .ready) commits history =
      (if (commits ++ (front ++ [lastD]).flatMap
            (fun d => d.repository.default_branch.target.history.nodes)).length =
          lastD.repository.default_branch.target.history.total
       then .ok (commits ++ (front ++ [lastD]).flatMap
            (fun d => d.repository.default_branch.target.history.nodes))
       else .assertionError) := by
  induction front generalizing commits history with
  | nil =>
      rw [List.nil_append]
      rw [commitsWhile_next_page hcur
        (show retryGo ([lastD].map .ready) 1 [] = ([], [], 1, .page lastD) from rfl)]
      rw [commitsWhile_last hlast]
      simp
  | cons f front ih =>
      rw [List.cons_append]
      rw [commitsWhile_next_page hcur
        (show retryGo (((f :: (front ++ [lastD])).map .ready)) 1 [] =
          ((front ++ [lastD]).map .ready, [], 1, .page f) from rfl)]
      rw [ih (commits ++ f.repository.default_branch.target.history.nodes)
        f.repository.default_branch.target.history (hfront f (by simp))
        (fun d hd => hfront d (by simp [hd]))]
      simp [List.append_assoc]

/-- C1: over any delivered page sequence in which every page but the last
reports `hasNextPage` and the last does not, both fetch loops
(`get_repositories` and `get_commits`) return exactly the concatenation of
all pages' items in delivery order — iterating while `has_next` holds,
stopping when it is false — and when the accumulated item count differs from
the last page's remote-reported `totalCount`, the `assert` raises instead of
returning. -/
theorem pagination_concatenates_all_pages_or_asserts :
    (∀ (front : List OrgResponse) (lastD : OrgResponse),
        (∀ d ∈ front, d.organization.repositories.page_info.has_next = true) →
        lastD.organization.repositories.page_info.has_next = false →
        get_repositories (front ++ [lastD]) =
          (if ((front ++ [lastD]).flatMap
                (fun d => d.organization.repositories.nodes)).length =
              lastD.organization.repositories.total
           then .ok ((front ++ [lastD]).flatMap
                (fun d => d.organization.repositories.nodes))
           else .assertionError))
    ∧ (∀ (front : List RepoResponse) (lastD : RepoResponse),
        (∀ d ∈ front,
          d.repository.default_branch.target.history.page_info.has_next = true) →
        lastD.repository.default_branch.target.history.page_info.has_next = false →
        get_commits ((front ++ [lastD]).map .ready) =
          (if ((front ++ [lastD]).flatMap
                (fun d => d.repository.default_branch.target.history.nodes)).length =
              lastD.repository.default_branch.target.history.total
           then .ok ((front ++ [lastD]).flatMap
                (fun d => d.repository.default_branch.target.history.nodes))
           else .assertionError)) := by
  constructor
  · intro front lastD hfront hlast
    cases front with
    | nil =>
        rw [List.nil_append]
        show reposLoop [] lastD.organization.repositories.nodes
          lastD.organization.repositories = _
        rw [reposLoop_stop hlast]
        simp
    | cons f front =>
        rw [List.cons_append]
        show reposLoop (front ++ [lastD]) f.organization.repositories.nodes
          f.organization.repositories = _
        rw [reposLoop_pages front lastD _ _ (hfront f (by simp))
          (fun d hd => hfront d (by simp [hd])) hlast]
        simp [List.append_assoc]
  · intro front lastD hfront hlast
    cases front with
    | nil =>
        rw [List.nil_append]
        show commitsWhile []
          lastD.repository.default_branch.target.history.nodes
          lastD.repository.default_branch.target.history = _
        rw [commitsWhile_last hlast]
        simp
    | cons f front =>
        show commitsWhile ((front ++ [lastD]).map .ready)
          f.repository.default_branch.target.history.nodes
          f.repository.default_branch.target.history = _
        rw [commitsWhile_pages front lastD _ _ (hfront f (by simp))
          (fun d hd => hfront d (by simp [hd])) hlast]
        simp [List.append_assoc]

/-- Witness for C1: a concrete two-page repository listing whose item count
matches the reported total (returned whole), and a concrete two-page commit
history whose count does not match (assertion raised). -/
theorem pagination_concatenates_all_pages_or_asserts_witness :
    get_repositories
        [⟨⟨"o", ⟨[⟨"1", "a", "u"⟩], ⟨true, "c1"⟩, 2⟩⟩⟩,
         ⟨⟨"o", ⟨[⟨"2", "b", "u"⟩], ⟨false, "c2"⟩, 2⟩⟩⟩] =
      .ok [⟨"1", "a", "u"⟩, ⟨"2", "b", "u"⟩]
    ∧ get_commits
        [.ready ⟨⟨⟨"main", ⟨⟨[⟨"s1", 1, 2, ⟨"X", "x@x", none⟩⟩], ⟨true, "c1"⟩, 3⟩⟩⟩⟩⟩,
         .ready ⟨⟨⟨"main", ⟨⟨[⟨"s2", 3, 4, ⟨"X", "x@x", none⟩⟩], ⟨false, "c2"⟩, 3⟩⟩⟩⟩⟩] =
      .assertionError := by
  constructor
  · have h := pagination_concatenates_all_pages_or_asserts.1
      [⟨⟨"o", ⟨[⟨"1", "a", "u"⟩], ⟨true, "c1"⟩, 2⟩⟩⟩]
      ⟨⟨"o", ⟨[⟨"2", "b", "u"⟩], ⟨false, "c2"⟩, 2⟩⟩⟩ (by simp) rfl
    simpa using h
  · have h := pagination_concatenates_all_pages_or_asserts.2
      [⟨⟨⟨"main", ⟨⟨[⟨"s1", 1, 2, ⟨"X", "x@x", none⟩⟩], ⟨true, "c1"⟩, 3⟩⟩⟩⟩⟩]
      ⟨⟨⟨"main", ⟨⟨[⟨"s2", 3, 4, ⟨"X", "x@x", none⟩⟩], ⟨false, "c2"⟩, 3⟩⟩⟩⟩⟩ (by simp) rfl
    simpa using h

/-- The spec's description of an email's total, stated independently of the
fold: the sum, over all commits whose author email is `e`, of additions plus
deletions. -/
def specTotal (commits : List Commit) (e : String) : Int :=
  ((commits.filter (fun c => c.author.email = e)).map
    (fun c => c.additions + c.deletions)).sum

theorem specTotal_nil (e : String) : specTotal [] e = 0 := rfl

theorem specTotal_cons (c : Commit) (cs : List Commit) (e : String) :
    specTotal (c :: cs) e =
      (if c.author.email = e then c.additions + c.deletions else 0) +
        specTotal cs e := by
  unfold specTotal
  rw [List.filter_cons]
  by_cases h : c.author.email = e
  · simp [h]
  · simp [h]

/-- Characterization of one `result[email] += v` step: the bumped key maps to
its old value (defaulting to 0) plus `v`; every other key is untouched. -/
theorem lookup_bumpTotal (m : List (String × Int)) (email k : String) (v : Int) :
    lookup (bumpTotal m email v) k =
      if k = email then some ((lookup m k).getD 0 + v) else lookup m k := by
  induction m with
  | nil =>
      by_cases h : k = email
      · subst h
        simp [bumpTotal, lookup]
      · simp [bumpTotal, lookup, h, Ne.symm h]
  | cons p m ih =>
      obtain ⟨pk, pv⟩ := p
      by_cases h1 : pk = email
      · subst h1
        by_cases h2 : pk = k
        · subst h2
          simp [bumpTotal, lookup]
        · simp [bumpTotal, lookup, h2, Ne.symm h2]
      · by_cases h2 : pk = k
        · subst h2
          simp [bumpTotal, lookup, h1, Ne.symm h1]
        · simp [bumpTotal, lookup, h1, h2, ih]

/-- Folding a commit list into the running state: each email's total
(defaulting to 0) grows by exactly that email's spec-side sum over the
list. -/
theorem totals_value (cs : List Commit)
    (st : List (String × Int) × List (String × AuthorDetail)) (k : String) :
    (lookup (cs.foldl addCommit st).1 k).getD 0 =
      (lookup st.1 k).getD 0 + specTotal cs k := by
  induction cs generalizing st with
  | nil => simp [specTotal_nil]
  | cons c cs ih =>
      rw [List.foldl_cons, ih (addCommit st c), specTotal_cons]
      show ((lookup (bumpTotal st.1 c.author.email
        (c.additions + c.deletions)) k).getD 0) + _ = _
      rw [lookup_bumpTotal]
      by_cases h : k = c.author.email
      · subst h
        simp
        ring
      · have h2 : ¬c.author.email = k := fun hh => h hh.symm
        simp [h, h2]

/-- Folding a commit list into the running state: an email is absent from the
totals exactly when it was absent before and no commit in the list carries
it. -/
theorem totals_none (cs : List Commit)
    (st : List (String × Int) × List (String × AuthorDetail)) (k : String) :
    (lookup (cs.foldl addCommit st).1 k = none ↔
      lookup st.1 k = none ∧ ∀ c ∈ cs, c.author.email ≠ k) := by
  induction cs generalizing st with
  | nil => simp
  | cons c cs ih =>
      rw [List.foldl_cons, ih (addCommit st c)]
      show lookup (bumpTotal st.1 c.author.email (c.additions + c.deletions)) k
          = none ∧ _ ↔ _
      rw [lookup_bumpTotal]
      by_cases h : k = c.author.email
      · subst h
        simp
      · have h2 : ¬c.author.email = k := fun hh => h hh.symm
        simp [h, h2]

/-- The outer fold over per-repository fragments equals the flat fold over
the concatenation of all their commits, in order. -/
theorem foldl_processCommits_flatten (frags : List (List Commit))
    (st : List (String × Int) × List (String × AuthorDetail)) :
    frags.foldl processCommits st = frags.flatten.foldl addCommit st := by
  induction frags generalizing st with
  | nil => rfl
  | cons f frags ih =>
      rw [List.foldl_cons, ih (processCommits st f), List.flatten_cons,
        List.foldl_append]
      rfl

/-- Full characterization of the totals dict produced by the aggregation
loop: an email maps to its spec-side total when some commit carries it, and
is absent otherwise. -/
theorem lookup_foldFrags_totals (frags : List (List Commit)) (e : String) :
    lookup (foldFrags frags).1 e =
      if frags.flatten.any (fun c => c.author.email == e) then
        some (specTotal frags.flatten e)
      else none := by
  unfold foldFrags
  rw [foldl_processCommits_flatten]
  rcases hl : lookup (frags.flatten.foldl addCommit ([], [])).1 e with _ | v
  · have hn := (totals_none frags.flatten ([], []) e).1 hl
    rw [if_neg]
    simp only [List.any_eq_true, beq_iff_eq, not_exists]
    intro c
    intro hc
    exact hn.2 c hc.1 hc.2
  · have hv := totals_value frags.flatten ([], []) e
    rw [hl] at hv
    simp only [Option.getD_some] at hv
    have hzero : (lookup (([], []) :
        List (String × Int) × List (String × AuthorDetail)).1 e).getD 0 = 0 := rfl
    rw [hzero, zero_add] at hv
    have hne : lookup (frags.flatten.foldl addCommit ([], [])).1 e ≠ none := by
      rw [hl]
      simp
    have hany : frags.flatten.any (fun c => c.author.email == e) = true := by
      by_contra hanyn
      have hall : ∀ c ∈ frags.flatten, c.author.email ≠ e := by
        simp only [List.any_eq_true, beq_iff_eq, not_exists] at hanyn
        intro c hc he
        exact hanyn c ⟨hc, he⟩
      exact hne ((totals_none frags.flatten ([], []) e).2 ⟨rfl, hall⟩)
    rw [if_pos hany, hv]

/-- C3: in the `total_by_identity` mapping built by the aggregation loop of
`summarize_contributions`, each email's total equals the sum, over all of its
commits across all repositories, of additions plus deletions; an email is a
key exactly when one of its commits was seen (so the total is implicitly 0
before the first commit).  The spec's end-to-end example is included: repo1
with X(x@x, +10/−2) and Y(y, +5/−0), repo2 with X(x@x, +3/−1) yields exactly
the dict x@x ↦ 16, y ↦ 5. -/
theorem totals_equal_sum_additions_plus_deletions :
    (∀ (frags : List (List Commit)) (e : String),
        (lookup (foldFrags frags).1 e).getD 0 = specTotal frags.flatten e)
    ∧ (∀ (frags : List (List Commit)) (e : String),
        (lookup (foldFrags frags).1 e = none ↔
          ∀ c ∈ frags.flatten, c.author.email ≠ e))
    ∧ (foldFrags
        [[⟨"s1", 10, 2, ⟨"X", "x@x", some ⟨"xlog"⟩⟩⟩,
          ⟨"s2", 5, 0, ⟨"Y", "y", none⟩⟩],
         [⟨"s3", 3, 1, ⟨"Xander", "x@x", some ⟨"xlog"⟩⟩⟩]]).1 =
        [("x@x", 16), ("y", 5)] := by
  refine ⟨?_, ?_, by decide⟩
  · intro frags e
    unfold foldFrags
    rw [foldl_processCommits_flatten, totals_value frags.flatten ([], []) e]
    show (0 : Int) + _ = _
    rw [zero_add]
  · intro frags e
    unfold foldFrags
    rw [foldl_processCommits_flatten, totals_none frags.flatten ([], []) e]
    simp [lookup]

/-- Witness for C3 at the spec's example: the total recorded for `x@x`
equals the spec-side sum of its commits' additions plus deletions. -/
theorem totals_equal_sum_additions_plus_deletions_witness :
    (lookup (foldFrags
        [[⟨"s1", 10, 2, ⟨"X", "x@x", some ⟨"xlog"⟩⟩⟩,
          ⟨"s2", 5, 0, ⟨"Y", "y", none⟩⟩],
         [⟨"s3", 3, 1, ⟨"Xander", "x@x", some ⟨"xlog"⟩⟩⟩]]).1 "x@x").getD 0 =
      specTotal
        [[⟨"s1", 10, 2, ⟨"X", "x@x", some ⟨"xlog"⟩⟩⟩,
          ⟨"s2", 5, 0, ⟨"Y", "y", none⟩⟩],
         [⟨"s3", 3, 1, ⟨"Xander", "x@x", some ⟨"xlog"⟩⟩⟩]].flatten "x@x" :=
  totals_equal_sum_additions_plus_deletions.1
    [[⟨"s1", 10, 2, ⟨"X", "x@x", some ⟨"xlog"⟩⟩⟩,
      ⟨"s2", 5, 0, ⟨"Y", "y", none⟩⟩],
     [⟨"s3", 3, 1, ⟨"Xander", "x@x", some ⟨"xlog"⟩⟩⟩]] "x@x"

/-- C4: folding the per-repository ledger fragments in any permuted order
yields the identical `total_by_identity` mapping (identical lookup for every
email key — the equality Python's `==` on dicts checks, which ignores
insertion order). -/
theorem fold_order_insensitive (frags1 frags2 : List (List Commit))
    (h : frags1.Perm frags2) (e : String) :
    lookup (foldFrags frags1).1 e = lookup (foldFrags frags2).1 e := by
  rw [lookup_foldFrags_totals, lookup_foldFrags_totals]
  have hflat : frags1.flatten.Perm frags2.flatten := h.flatten
  have hany : frags1.flatten.any (fun c => c.author.email == e) =
      frags2.flatten.any (fun c => c.author.email == e) := by
    rw [Bool.eq_iff_iff]
    simp only [List.any_eq_true]
    exact ⟨fun ⟨c, hc, hp⟩ => ⟨c, hflat.mem_iff.1 hc, hp⟩,
      fun ⟨c, hc, hp⟩ => ⟨c, hflat.mem_iff.2 hc, hp⟩⟩
  have hspec : specTotal frags1.flatten e = specTotal frags2.flatten e :=
    List.Perm.sum_eq ((hflat.filter _).map _)
  rw [hany, hspec]

/-- Witness for C4: swapping the two fragments of the C3 example leaves the
lookup of `x@x` unchanged. -/
theorem fold_order_insensitive_witness :
    lookup (foldFrags
        [[⟨"s1", 10, 2, ⟨"X", "x@x", some ⟨"xlog"⟩⟩⟩,
          ⟨"s2", 5, 0, ⟨"Y", "y", none⟩⟩],
         [⟨"s3", 3, 1, ⟨"Xander", "x@x", some ⟨"xlog"⟩⟩⟩]]).1 "x@x" =
      lookup (foldFrags
        [[⟨"s3", 3, 1, ⟨"Xander", "x@x", some ⟨"xlog"⟩⟩⟩],
         [⟨"s1", 10, 2, ⟨"X", "x@x", some ⟨"xlog"⟩⟩⟩,
          ⟨"s2", 5, 0, ⟨"Y", "y", none⟩⟩]]).1 "x@x" :=
  fold_order_insensitive _ _ (by decide) "x@x"

theorem updDetail_names (d : AuthorDetail) (c : Commit) :
    (updDetail d c).names = insert c.author.name d.names := rfl

theorem updDetail_login_of_user {c : Commit} {u : User}
    (h : c.author.user = some u) (d : AuthorDetail) :
    (updDetail d c).login = some (insert u.login (d.login.getD ∅)) := by
  unfold updDetail
  rw [h]

theorem updDetail_login_of_no_user {c : Commit} (h : c.author.user = none)
    (d : AuthorDetail) : (updDetail d c).login = d.login := by
  unfold updDetail
  rw [h]

/-- Characterization of one `authors.setdefault(email, {})` update step. -/
theorem lookup_updAuthors (m : List (String × AuthorDetail)) (c : Commit)
    (k : String) :
    lookup (updAuthors m c) k =
      if k = c.author.email then
        some (updDetail ((lookup m k).getD ⟨∅, none⟩) c)
      else lookup m k := by
  induction m with
  | nil =>
      by_cases h : k = c.author.email
      · subst h
        simp [updAuthors, lookup]
      · simp [updAuthors, lookup, h, Ne.symm h]
  | cons p m ih =>
      obtain ⟨pk, pd⟩ := p
      by_cases h1 : pk = c.author.email
      · subst h1
        by_cases h2 : c.author.email = k
        · subst h2
          simp [updAuthors, lookup]
        · simp [updAuthors, lookup, h2, Ne.symm h2]
      · by_cases h2 : pk = k
        · subst h2
          simp [updAuthors, lookup, h1, Ne.symm h1]
        · simp [updAuthors, lookup, h1, h2, ih]

/-- Characterization of the `authors` dict after folding a commit list: the
record for key `k` is the fold of `updDetail` over exactly the commits whose
author email is `k`, starting from the previous record (or the fresh empty
record on first sight; no commit with email `k` leaves the key absent). -/
theorem lookup_authors_foldl (cs : List Commit)
    (st : List (String × Int) × List (String × AuthorDetail)) (k : String) :
    lookup (cs.foldl addCommit st).2 k =
      (match lookup st.2 k with
       | some d => some ((cs.filter (fun c => c.author.email == k)).foldl updDetail d)
       | none =>
           if (cs.filter (fun c => c.author.email == k)).isEmpty then none
           else some ((cs.filter (fun c => c.author.email == k)).foldl updDetail
             ⟨∅, none⟩)) := by
  induction cs generalizing st with
  | nil =>
      rcases h : lookup st.2 k with _ | d
      · simp [h]
      · simp [h]
  | cons c cs ih =>
      rw [List.foldl_cons, ih (addCommit st c)]
      show (match lookup (updAuthors st.2 c) k with
            | some d => _ | none => _) = _
      rw [lookup_updAuthors, List.filter_cons]
      by_cases h : k = c.author.email
      · subst h
        have hb : (c.author.email == c.author.email) = true := by simp
        rw [if_pos rfl]
        rcases h2 : lookup st.2 c.author.email with _ | d
        · simp [h2, hb]
        · simp [h2, hb]
      · have h2 : (c.author.email == k) = false := by
          simp [Ne.symm h]
        rw [if_neg h, h2]
        simp

/-- Names accumulated by folding `updDetail`: exactly the starting names plus
every commit author name in the folded list. -/
theorem mem_names_foldl_updDetail (rel : List Commit) (d0 : AuthorDetail)
    (n : String) :
    (n ∈ (rel.foldl updDetail d0).names ↔
      n ∈ d0.names ∨ ∃ c ∈ rel, c.author.name = n) := by
  induction rel generalizing d0 with
  | nil => simp
  | cons c rel ih =>
      rw [List.foldl_cons, ih (updDetail d0 c), updDetail_names]
      simp only [Finset.mem_insert, List.mem_cons]
      constructor
      · rintro (⟨hn | hn⟩ | ⟨c2, hc2, hn⟩)
        · exact Or.inr ⟨c, Or.inl rfl, hn.symm⟩
        · exact Or.inl hn
        · exact Or.inr ⟨c2, Or.inr hc2, hn⟩
      · rintro (hn | ⟨c2, hc2 | hc2, hn⟩)
        · exact Or.inl (Or.inr hn)
        · subst hc2
          exact Or.inl (Or.inl hn.symm)
        · exact Or.inr ⟨c2, hc2, hn⟩

/-- Logins accumulated by folding `updDetail`: exactly the starting logins
plus the login of every platform-linked commit author in the folded list. -/
theorem mem_login_foldl_updDetail (rel : List Commit) (d0 : AuthorDetail)
    (l : String) :
    (l ∈ ((rel.foldl updDetail d0).login.getD ∅) ↔
      l ∈ (d0.login.getD ∅) ∨ ∃ c ∈ rel, c.author.user = some ⟨l⟩) := by
  induction rel generalizing d0 with
  | nil => simp
  | cons c rel ih =>
      rw [List.foldl_cons, ih (updDetail d0 c)]
      rcases hu : c.author.user with _ | u
      · rw [updDetail_login_of_no_user hu]
        simp only [List.mem_cons]
        constructor
        · rintro (hl | ⟨c2, hc2, hl⟩)
          · exact Or.inl hl
          · exact Or.inr ⟨c2, Or.inr hc2, hl⟩
        · rintro (hl | ⟨c2, hc2 | hc2, hl⟩)
          · exact Or.inl hl
          · subst hc2
            rw [hu] at hl
            cases hl
          · exact Or.inr ⟨c2, hc2, hl⟩
      · rw [updDetail_login_of_user hu]
        simp only [Option.getD_some, Finset.mem_insert, List.mem_cons]
        constructor
        · rintro (⟨hl | hl⟩ | ⟨c2, hc2, hl⟩)
          · subst hl
            exact Or.inr ⟨c, Or.inl rfl, by rw [hu]⟩
          · exact Or.inl hl
          · exact Or.inr ⟨c2, Or.inr hc2, hl⟩
        · rintro (hl | ⟨c2, hc2 | hc2, hl⟩)
          · exact Or.inl (Or.inr hl)
          · subst hc2
            rw [hu] at hl
            have hul : u = ⟨l⟩ := Option.some.inj hl
            exact Or.inl (Or.inl (by rw [hul]))
          · exact Or.inr ⟨c2, hc2, hl⟩

/-- The `"login"` key stays absent through a fold of `updDetail` exactly when
it was absent before and no folded commit has a platform-linked author. -/
theorem login_none_foldl_updDetail (rel : List Commit) (d0 : AuthorDetail) :
    ((rel.foldl updDetail d0).login = none ↔
      d0.login = none ∧ ∀ c ∈ rel, c.author.user = none) := by
  induction rel generalizing d0 with
  | nil => simp
  | cons c rel ih =>
      rw [List.foldl_cons, ih (updDetail d0 c)]
      rcases hu : c.author.user with _ | u
      · rw [updDetail_login_of_no_user hu]
        simp [hu]
      · rw [updDetail_login_of_user hu]
        simp [hu]

/-- Once the `"login"` set exists it is nonempty, and it never reverts to
absent: folding preserves "absent, or present and nonempty". -/
theorem login_nonempty_foldl_updDetail (rel : List Commit) (d0 : AuthorDetail)
    (h0 : d0.login = none ∨ ∃ s0, d0.login = some s0 ∧ s0.Nonempty) :
    ((rel.foldl updDetail d0).login = none ∨
      ∃ s, (rel.foldl updDetail d0).login = some s ∧ s.Nonempty) := by
  induction rel generalizing d0 with
  | nil => exact h0
  | cons c rel ih =>
      rw [List.foldl_cons]
      refine ih (updDetail d0 c) ?_
      rcases hu : c.author.user with _ | u
      · rw [updDetail_login_of_no_user hu]
        exact h0
      · rw [updDetail_login_of_user hu]
        exact Or.inr ⟨_, rfl, Finset.insert_nonempty _ _⟩

/-- Existential transfer between the email-filtered commit list and the full
list. -/
theorem exists_mem_filter_email (cs : List Commit) (e : String)
    (P : Commit → Prop) :
    ((∃ c ∈ cs.filter (fun c => c.author.email == e), P c) ↔
      ∃ c ∈ cs, c.author.email = e ∧ P c) := by
  constructor
  · rintro ⟨c, hc, hp⟩
    rw [List.mem_filter] at hc
    exact ⟨c, hc.1, by simpa using hc.2, hp⟩
  · rintro ⟨c, hc, he, hp⟩
    exact ⟨c, List.mem_filter.2 ⟨hc, by simpa using he⟩, hp⟩

/-- The record stored for an email key is the `updDetail` fold over exactly
that email's commits, and the key exists only when such a commit exists. -/
theorem lookup_foldFrags_authors (frags : List (List Commit)) (e : String)
    (d : AuthorDetail) (h : lookup (foldFrags frags).2 e = some d) :
    ((frags.flatten.filter (fun c => c.author.email == e)) ≠ [] ∧
      d = (frags.flatten.filter (fun c => c.author.email == e)).foldl updDetail
        ⟨∅, none⟩) := by
  unfold foldFrags at h
  rw [foldl_processCommits_flatten, lookup_authors_foldl] at h
  have hnil : lookup (([], []) :
      List (String × Int) × List (String × AuthorDetail)).2 e = none := rfl
  rw [hnil] at h
  by_cases hrel : (frags.flatten.filter (fun c => c.author.email == e)).isEmpty
  · rw [if_pos hrel] at h
    cases h
  · rw [if_neg hrel] at h
    refine ⟨by simpa [List.isEmpty_iff] using hrel, (Option.some.inj h).symm⟩

/-- C7: in the `authors` mapping built in full-history mode, the record of an
email key holds exactly the set of author names observed on that email's
commits, and exactly the set of logins observed on that email's
platform-linked commits (the login set read as empty while the `"login"` key
is still absent).  Both characterizations quantify only over commits carrying
that exact email, so identities are never merged across distinct emails. -/
theorem identity_details_names_and_logins (frags : List (List Commit))
    (e : String) (d : AuthorDetail)
    (h : lookup (foldFrags frags).2 e = some d) (n l : String) :
    ((n ∈ d.names ↔ ∃ c ∈ frags.flatten, c.author.email = e ∧ c.author.name = n)
      ∧ (l ∈ d.login.getD ∅ ↔
          ∃ c ∈ frags.flatten, c.author.email = e ∧ c.author.user = some ⟨l⟩)) := by
  obtain ⟨-, hd⟩ := lookup_foldFrags_authors frags e d h
  subst hd
  constructor
  · rw [mem_names_foldl_updDetail]
    rw [show ((⟨∅, none⟩ : AuthorDetail).names = ∅) from rfl]
    simp only [Finset.not_mem_empty, false_or]
    exact exists_mem_filter_email _ e _
  · rw [mem_login_foldl_updDetail]
    rw [show ((⟨∅, none⟩ : AuthorDetail).login = none) from rfl]
    simp only [Option.getD_none, Finset.not_mem_empty, false_or]
    exact exists_mem_filter_email _ e _

/-- Witness for C7 on a one-commit run: the record stored for `x@x` contains
the observed name `X` and the observed login `xlog`. -/
theorem identity_details_names_and_logins_witness :
    (("X" ∈ (updDetail ⟨∅, none⟩
        ⟨"s1", 10, 2, ⟨"X", "x@x", some ⟨"xlog"⟩⟩⟩).names ↔
      ∃ c ∈ [[(⟨"s1", 10, 2, ⟨"X", "x@x", some ⟨"xlog"⟩⟩⟩ : Commit)]].flatten,
        c.author.email = "x@x" ∧ c.author.name = "X")
    ∧ ("xlog" ∈ (updDetail ⟨∅, none⟩
        ⟨"s1", 10, 2, ⟨"X", "x@x", some ⟨"xlog"⟩⟩⟩).login.getD ∅ ↔
      ∃ c ∈ [[(⟨"s1", 10, 2, ⟨"X", "x@x", some ⟨"xlog"⟩⟩⟩ : Commit)]].flatten,
        c.author.email = "x@x" ∧ c.author.user = some ⟨"xlog"⟩)) :=
  identity_details_names_and_logins
    [[⟨"s1", 10, 2, ⟨"X", "x@x", some ⟨"xlog"⟩⟩⟩]] "x@x"
    (updDetail ⟨∅, none⟩ ⟨"s1", 10, 2, ⟨"X", "x@x", some ⟨"xlog"⟩⟩⟩)
    rfl "X" "xlog"

/-- C10: every email key of the `authors` mapping carries a non-empty
`"names"` set; the `"login"` key is present (never as an empty set) exactly
when at least one of that email's commits has a platform-linked user, and is
absent otherwise. -/
theorem identity_details_login_field_presence (frags : List (List Commit))
    (e : String) (d : AuthorDetail)
    (h : lookup (foldFrags frags).2 e = some d) :
    (d.names.Nonempty
      ∧ (d.login ≠ none ↔
          ∃ c ∈ frags.flatten, c.author.email = e ∧ c.author.user ≠ none)
      ∧ (∀ s, d.login = some s → s.Nonempty)) := by
  obtain ⟨hne, hd⟩ := lookup_foldFrags_authors frags e d h
  subst hd
  refine ⟨?_, ?_, ?_⟩
  · rcases hrel : frags.flatten.filter (fun c => c.author.email == e) with
      _ | ⟨c, rel⟩
    · exact absurd hrel hne
    · refine ⟨c.author.name, ?_⟩
      rw [mem_names_foldl_updDetail]
      exact Or.inr ⟨c, by rw [hrel]; exact List.mem_cons_self c rel, rfl⟩
  · rw [Ne, login_none_foldl_updDetail]
    rw [show ((⟨∅, none⟩ : AuthorDetail).login = none) from rfl]
    simp only [true_and]
    rw [← exists_mem_filter_email _ e (fun c => c.author.user ≠ none)]
    constructor
    · intro hno
      by_contra hnex
      push_neg at hnex
      exact hno hnex
    · rintro ⟨c, hc, hcu⟩ hall
      exact hcu (hall c hc)
  · intro s hs
    rcases login_nonempty_foldl_updDetail
        (frags.flatten.filter (fun c => c.author.email == e)) ⟨∅, none⟩
        (Or.inl rfl) with hnone | ⟨s2, hs2, hs2ne⟩
    · rw [hs] at hnone
      cases hnone
    · rw [hs] at hs2
      rwa [← Option.some.inj hs2] at hs2ne

/-- Witness for C10 on the one-commit run: the `x@x` record has a nonempty
names set, and its `"login"` key is present since the commit's author is
platform-linked. -/
theorem identity_details_login_field_presence_witness :
    ((updDetail ⟨∅, none⟩
        ⟨"s1", 10, 2, ⟨"X", "x@x", some ⟨"xlog"⟩⟩⟩).names.Nonempty
    ∧ ((updDetail ⟨∅, none⟩
        ⟨"s1", 10, 2, ⟨"X", "x@x", some ⟨"xlog"⟩⟩⟩).login ≠ none ↔
      ∃ c ∈ [[(⟨"s1", 10, 2, ⟨"X", "x@x", some ⟨"xlog"⟩⟩⟩ : Commit)]].flatten,
        c.author.email = "x@x" ∧ c.author.user ≠ none)
    ∧ (∀ s, (updDetail ⟨∅, none⟩
        ⟨"s1", 10, 2, ⟨"X", "x@x", some ⟨"xlog"⟩⟩⟩).login = some s →
        s.Nonempty)) :=
  identity_details_login_field_presence
    [[⟨"s1", 10, 2, ⟨"X", "x@x", some ⟨"xlog"⟩⟩⟩]] "x@x"
    (updDetail ⟨∅, none⟩ ⟨"s1", 10, 2, ⟨"X", "x@x", some ⟨"xlog"⟩⟩⟩) rfl

/-- C9: `summarize_contributions` retrieves commit histories one repository
at a time through the sequential generator `runCommits`, in ascending
lexicographic order of the filtered repository names: the retrieval order is
sorted, hits each filtered name exactly once, and — being a pure function of
the listing and per-repository responses — two runs over identical remote
responses produce the identical request sequence and results. -/
theorem retrieval_sequential_in_sorted_order :
    (∀ (repos : List Repository) (allow deny : Finset String),
        (retrievalOrder repos allow deny).Sorted (· ≤ ·)
        ∧ (retrievalOrder repos allow deny).Nodup
        ∧ (∀ n, n ∈ retrievalOrder repos allow deny ↔
            n ∈ filterNames ((repos.map (fun r => r.name)).toFinset) allow deny))
    ∧ (∀ (listing : List OrgResponse) (allow deny : Finset String)
        (responses : String → List Resp) (repos : List Repository),
        get_repositories listing = .ok repos →
        summarize_contributions listing allow deny responses =
          (match runCommits (retrievalOrder repos allow deny) responses with
           | .ok frags => some (foldFrags frags)
           | .error _ => none)) := by
  constructor
  · intro repos allow deny
    exact ⟨Finset.sort_sorted _ _, Finset.sort_nodup _ _,
      fun n => Finset.mem_sort _⟩
  · intro listing allow deny responses repos h
    unfold summarize_contributions
    rw [h]

/-- Witness for C9: a one-page listing with a single repository `a`; the run
reduces to the sequential `runCommits` over the sorted filtered names. -/
theorem retrieval_sequential_in_sorted_order_witness :
    summarize_contributions [⟨⟨"o", ⟨[⟨"1", "a", "u"⟩], ⟨false, ""⟩, 1⟩⟩⟩]
        ∅ ∅ (fun _x => [.ready ⟨⟨⟨"main", ⟨⟨[], ⟨false, ""⟩, 0⟩⟩⟩⟩⟩]) =
      (match runCommits (retrievalOrder [⟨"1", "a", "u"⟩] ∅ ∅)
          (fun _x => [.ready ⟨⟨⟨"main", ⟨⟨[], ⟨false, ""⟩, 0⟩⟩⟩⟩⟩]) with
       | .ok frags => some (foldFrags frags)
       | .error _ => none) :=
  retrieval_sequential_in_sorted_order.2
    [⟨⟨"o", ⟨[⟨"1", "a", "u"⟩], ⟨false, ""⟩, 1⟩⟩⟩] ∅ ∅
    (fun _x => [.ready ⟨⟨⟨"main", ⟨⟨[], ⟨false, ""⟩, 0⟩⟩⟩⟩⟩])
    [⟨"1", "a", "u"⟩] rfl

end Contributions
